import Mathlib

/-
  Verification development for the ParticleSystem repository (src/main.cpp).

  The C++ source is shallowly embedded over exact rational arithmetic:
  sf::Vector2f becomes ℚ × ℚ, sf::FloatRect becomes a record of four
  rationals, the parallel arrays of a batch become total functions
  ℕ → ℚ × ℚ together with the `population` counter (an `int`, hence ℤ),
  and the in-place loops of `update` become structural recursions that
  pass the mutated state explicitly.
-/

namespace PSim

/-- Planar vector of rationals, modelling sf::Vector2f with exact arithmetic. -/
abbrev Vec := ℚ × ℚ

/-- Componentwise scaling, modelling sf::Vector2f multiplied by a float scalar. -/
def smul' (v : Vec) (c : ℚ) : Vec := (v.1 * c, v.2 * c)

/-- Componentwise division, modelling sf::Vector2f divided by a float scalar. -/
def sdiv (v : Vec) (c : ℚ) : Vec := (v.1 / c, v.2 / c)

/-- Axis-aligned rectangle, modelling sf::FloatRect. -/
structure Rect where
  left : ℚ
  top : ℚ
  width : ℚ
  height : ℚ

/-- Membership test of sf::FloatRect::contains: the rectangle is the
half-open box [min(left, left+width), max(left, left+width)) ×
[min(top, top+height), max(top, top+height)). -/
def rectContains (r : Rect) (p : Vec) : Bool :=
  decide (min r.left (r.left + r.width) ≤ p.1) &&
  decide (p.1 < max r.left (r.left + r.width)) &&
  decide (min r.top (r.top + r.height) ≤ p.2) &&
  decide (p.2 < max r.top (r.top + r.height))

/-- MAX_BATCH_VERTS, the fixed batch capacity K (source line 16). -/
def MAX_BATCH_VERTS : ℤ := 1000

/-- The fixed timestep dt.asSeconds() = 1/60 (source line 21). -/
def dtQ : ℚ := 1 / 60

/-- W_DIM, the 800×600 world bounds (source line 24). -/
def W_DIM : Rect := ⟨0, 0, 800, 600⟩

/-- gField: a point-source field with an origin and a signed intensity. -/
structure GField where
  origin : Vec
  intensity : ℚ

/-- batch: parallel columns for up to MAX_BATCH_VERTS particles plus the
`population` counter. The fixed-size arrays are modelled as total functions
on ℕ; only indices below `population` are live. A fresh batch zero-initialises
every column (sf::Vertex and sf::Vector2f default-construct to (0,0)). -/
structure Batch where
  vertices : ℕ → Vec
  oldPositions : ℕ → Vec
  velocities : ℕ → Vec
  acceleration : ℕ → Vec
  population : ℤ

/-- A default-constructed batch: all columns zero, population 0. -/
def Batch.empty : Batch :=
  ⟨fun _ => (0, 0), fun _ => (0, 0), fun _ => (0, 0), fun _ => (0, 0), 0⟩

/-- world: bounds, the ordered batches, and the gravitational fields. -/
@[ext] structure World where
  bounds : Rect
  particles : List Batch
  gravFields : List GField

/-- spawnParticle (source lines 77-97): if the batch list is empty, append a
fresh batch; read N, the population of the last batch; if N ≥ MAX_BATCH_VERTS,
append another fresh batch and reset N to 0; then write the position into
vertices[N] and oldPositions[N], the velocity into velocities[N], increment the
last batch's population, and increment the global particle counter. Note the
source writes no acceleration value. -/
def spawnParticle (pos vel : Vec) (batches : List Batch) (cnt : ℤ) :
    List Batch × ℤ :=
  let bs0 := if batches.isEmpty then batches ++ [Batch.empty] else batches
  let N0 : ℤ := (bs0.getLastD Batch.empty).population
  let bs1 := if MAX_BATCH_VERTS ≤ N0 then bs0 ++ [Batch.empty] else bs0
  let N : ℤ := if MAX_BATCH_VERTS ≤ N0 then 0 else N0
  let b := bs1.getLastD Batch.empty
  let n := N.toNat
  let b' : Batch :=
    { b with
      vertices := Function.update b.vertices n pos
      oldPositions := Function.update b.oldPositions n pos
      velocities := Function.update b.velocities n vel
      population := b.population + 1 }
  (bs1.dropLast ++ [b'], cnt + 1)

/-- The gravitational accumulation of source lines 124-131: starting from the
zero vector, for each field g in order let r = g.origin − pos and
r2 = r.x·r.x + r.y·r.y, and add r / r2 · g.intensity. The division is
performed unconditionally, exactly as in the source. -/
def totalGForce (fields : List GField) (pos : Vec) : Vec :=
  fields.foldl
    (fun acc g =>
      let r : Vec := g.origin - pos
      let r2 : ℚ := r.1 * r.1 + r.2 * r.2
      acc + smul' (sdiv r r2) g.intensity)
    (0, 0)

/-- Detects whether the accumulation of `totalGForce` ever divides by a zero
r2, which in the IEEE-float source is a 0/0 = NaN hazard. -/
def forceHasZeroDenom (fields : List GField) (pos : Vec) : Bool :=
  fields.any (fun g =>
    let r : Vec := g.origin - pos
    decide (r.1 * r.1 + r.2 * r.2 = 0))

/-- The position integration of source line 121:
position + velocity·dt + acceleration·dt·dt. -/
def integratePos (p v a : Vec) : Vec :=
  p + smul' v dtQ + smul' (smul' a dtQ) dtQ

/-- The velocity integration of source line 133:
velocity + 0.5·(acceleration + totalGForce)·dt. -/
def integrateVel (v a F : Vec) : Vec :=
  v + smul' (smul' (a + F) (1 / 2)) dtQ

/-- The gap-closing loop of source lines 142-146, run for k iterations
starting at column index i: vertices[m] = vertices[m+1] and
velocities[m] = velocities[m+1]. The acceleration and oldPositions columns
are not touched, exactly as in the source. -/
def shiftCols : Batch → ℕ → ℕ → Batch
  | b, _, 0 => b
  | b, i, k + 1 =>
      shiftCols
        { b with
          vertices := Function.update b.vertices i (b.vertices (i + 1))
          velocities := Function.update b.velocities i (b.velocities (i + 1)) }
        (i + 1) k

/-- The body of the per-particle loop, source lines 116-147, at slot i.
If the stored position is inside the bounds, integrate the position, accumulate
the field force at the new position, integrate the velocity, and store the new
acceleration. Otherwise decrement the batch population and the global counter
and close the gap by shifting the higher slots down. -/
def stepAt (bounds : Rect) (fields : List GField) (i : ℕ) (b : Batch)
    (cnt : ℤ) : Batch × ℤ :=
  if rectContains bounds (b.vertices i) then
    let pos' := integratePos (b.vertices i) (b.velocities i) (b.acceleration i)
    let F := totalGForce fields pos'
    let vel' := integrateVel (b.velocities i) (b.acceleration i) F
    ({ b with
        vertices := Function.update b.vertices i pos'
        velocities := Function.update b.velocities i vel'
        acceleration := Function.update b.acceleration i F }, cnt)
  else
    let b1 : Batch := { b with population := b.population - 1 }
    (shiftCols b1 i (b1.population - (i : ℤ)).toNat, cnt - 1)

/-- The per-batch loop of source line 116: slots are processed from index
population−1 down to 0; `updateLoop k` processes slots k−1, k−2, …, 0. -/
def updateLoop (bounds : Rect) (fields : List GField) :
    ℕ → Batch × ℤ → Batch × ℤ
  | 0, s => s
  | k + 1, s => updateLoop bounds fields k (stepAt bounds fields k s.1 s.2)

/-- One full pass of the per-batch loop together with its effect on the
global particle counter. -/
def updateBatchC (bounds : Rect) (fields : List GField) (b : Batch) (cnt : ℤ) :
    Batch × ℤ :=
  updateLoop bounds fields b.population.toNat (b, cnt)

/-- One full pass of the per-batch loop (source lines 116-148). -/
def updateBatch (bounds : Rect) (fields : List GField) (b : Batch) : Batch :=
  (updateBatchC bounds fields b 0).1

/-- STEP * id, the first batch index of worker `id` (source line 110),
with STEP = M / T the integer quotient of source line 109. -/
def threadStart (T M id : ℕ) : ℕ := M / T * id

/-- The one-past-the-end batch index of worker `id` (source line 111):
the last worker runs to M, every other worker to STEP * (id + 1). -/
def threadStop (T M id : ℕ) : ℕ :=
  if id = T - 1 then M else M / T * (id + 1)

/-- List.map with the index of each element, starting at index s. -/
def mapWithIndex (f : ℕ → Batch → Batch) : ℕ → List Batch → List Batch
  | _, [] => []
  | s, b :: bs => f s b :: mapWithIndex f (s + 1) bs

/-- The thread body `update` (source lines 104-154) for worker `id` out of T:
it runs the per-batch pass on every batch whose index lies in
[threadStart, threadStop) and leaves the other batches alone. The in-place
for-loop over the index range is rendered as an index-guarded map. -/
def update (T id : ℕ) (env : World) : World :=
  { env with
    particles :=
      mapWithIndex
        (fun j b =>
          if threadStart T env.particles.length id ≤ j
              ∧ j < threadStop T env.particles.length id then
            updateBatch env.bounds env.gravFields b
          else b)
        0 env.particles }

/-- updateSystem (source lines 157-171) with worker count T: dispatch the T
thread bodies and wait for all of them. The workers mutate pairwise disjoint
batches (proved below), so the concurrent execution is rendered as the
sequential composition of the thread bodies in id order; with T = 0 no worker
runs and the wait is immediately satisfied. -/
def updateSystem (T : ℕ) (env : World) : World :=
  (List.range T).foldl (fun e id => update T id e) env

/-- The deterministic single-threaded reference pass: every batch gets one
per-batch pass, in order. -/
def seqUpdate (env : World) : World :=
  { env with
    particles := env.particles.map (updateBatch env.bounds env.gravFields) }

/-- The fixed-timestep loop of source lines 220-224: while the accumulated
time is at least dt, run one system update and subtract dt. Returns the
number of update passes run and the remaining accumulator. -/
def tickLoop (acc : ℚ) : ℕ × ℚ :=
  if dtQ ≤ acc then
    let r := tickLoop (acc - dtQ)
    (r.1 + 1, r.2)
  else (0, acc)
termination_by (⌊acc / dtQ⌋).toNat
decreasing_by
  have hdt : (0 : ℚ) < dtQ := by norm_num [dtQ]
  have h1 : (1 : ℚ) ≤ acc / dtQ := (one_le_div hdt).mpr (by assumption)
  have h2 : (1 : ℤ) ≤ ⌊acc / dtQ⌋ := by
    exact_mod_cast Int.le_floor.mpr (by exact_mod_cast h1)
  have h3 : (acc - dtQ) / dtQ = acc / dtQ - 1 := by
    field_simp
  have h4 : ⌊(acc - dtQ) / dtQ⌋ = ⌊acc / dtQ⌋ - 1 := by
    rw [h3, Int.floor_sub_one]
  omega

/-- One rendered frame of the tick driver (source lines 219-224): add the
frame delta to the accumulator, then run the fixed-timestep loop. -/
def tickFrame (acc delta : ℚ) : ℕ × ℚ :=
  tickLoop (acc + delta)

/-- The operations that mutate the world between renders: a spawn request or
one tick of the update system with worker count T. -/
inductive Op where
  | spawn (pos vel : Vec)
  | tick (T : ℕ)

/-- Apply one operation to the world. The global particle counter is modelled
separately at the spawn/step level, so the world-level spawn drops it. -/
def applyOp (w : World) : Op → World
  | Op.spawn pos vel =>
      { w with particles := (spawnParticle pos vel w.particles 0).1 }
  | Op.tick T => updateSystem T w

/-- Run a list of operations from a world with the given bounds and fields
and no batches. -/
def runOps (B : Rect) (F : List GField) (ops : List Op) : World :=
  ops.foldl applyOp ⟨B, [], F⟩

/-- Iterate spawnParticle n times from the empty state, the i-th call taking
its position and velocity from the stream f. -/
def spawnIter (f : ℕ → Vec × Vec) : ℕ → List Batch × ℤ
  | 0 => ([], 0)
  | n + 1 =>
      let s := spawnIter f n
      spawnParticle (f n).1 (f n).2 s.1 s.2

/-- The observable row of a slot: its position and velocity, the two columns
the compaction loop moves. -/
def rowPair (b : Batch) (i : ℕ) : Vec × Vec := (b.vertices i, b.velocities i)

/-- The observable rows of the live slots [0, population) of a batch. -/
def outPairs (b : Batch) : List (Vec × Vec) :=
  (List.range b.population.toNat).map (rowPair b)

/-- The rows of slots [k, k+n) of a batch. -/
def tailPairs (b : Batch) (k n : ℕ) : List (Vec × Vec) :=
  (List.range' k n).map (rowPair b)

/-- Predicate of the population invariant 0 ≤ population ≤ K on one batch. -/
def popOK (b : Batch) : Bool :=
  decide (0 ≤ b.population ∧ b.population ≤ MAX_BATCH_VERTS)

/-- The gravitational field placed by main (source line 190). -/
def fields0 : List GField := [⟨(400, 300), 500⟩]

/-- A batch holding one in-bounds particle at (799, 300) moving right at
120 units per second: one step of integration moves it out of bounds. -/
def bC1 : Batch :=
  { Batch.empty with
    vertices := Function.update Batch.empty.vertices 0 (799, 300)
    velocities := Function.update Batch.empty.velocities 0 (120, 0)
    population := 1 }

/-- A batch holding an out-of-bounds particle at slot 0 and an in-bounds
particle at slot 1 whose acceleration entry is distinguishable. -/
def bC2 : Batch :=
  { Batch.empty with
    vertices :=
      Function.update (Function.update Batch.empty.vertices 0 (-5, -5)) 1 (100, 100)
    acceleration :=
      Function.update (Function.update Batch.empty.acceleration 0 (1, 1)) 1 (7, 7)
    population := 2 }

/-- A batch holding an out-of-bounds particle at slot 0 and an in-bounds
particle at slot 1, used as a concrete witness input. -/
def bC1w : Batch :=
  { Batch.empty with
    vertices :=
      Function.update (Function.update Batch.empty.vertices 0 (-5, -5)) 1 (100, 100)
    population := 2 }

/-- Spawn a fast particle, let two passes push it out and remove it, then
spawn into the recycled slot. -/
def opsC3 : List Op :=
  [Op.spawn (400, 301) (48000, 0), Op.tick 1, Op.tick 1, Op.spawn (10, 10) (0, 0)]

/-- The world reached by running `opsC3` from an empty world. -/
def wC3 : World := runOps W_DIM fields0 opsC3

/-- A one-particle batch with nonzero velocity and acceleration, used as a
concrete witness input for the integration formulas. -/
def bC5 : Batch :=
  { Batch.empty with
    vertices := Function.update Batch.empty.vertices 0 (1, 2)
    velocities := Function.update Batch.empty.velocities 0 (3, 4)
    acceleration := Function.update Batch.empty.acceleration 0 (5, 6)
    population := 1 }

/-- A three-batch world exercising the two-worker partition. -/
def wC6 : World :=
  ⟨W_DIM,
   [{ Batch.empty with
        vertices := Function.update Batch.empty.vertices 0 (10, 10)
        population := 1 },
    { Batch.empty with
        vertices := Function.update Batch.empty.vertices 0 (900, 10)
        population := 1 },
    bC1w],
   fields0⟩

/-- A world holding one already-out-of-bounds particle. -/
def wC10 : World :=
  ⟨W_DIM,
   [{ Batch.empty with
        vertices := Function.update Batch.empty.vertices 0 (900, 300)
        population := 1 }],
   []⟩

section UpdateLemmas

variable (bounds : Rect) (fields : List GField)

/-- The effect of one per-particle step on one row: an in-bounds row is kept
with integrated position and velocity, an out-of-bounds row is dropped. -/
def rowOut (p v a : Vec) : Option (Vec × Vec) :=
  if rectContains bounds p then
    some (integratePos p v a,
          integrateVel v a (totalGForce fields (integratePos p v a)))
  else none

/-- The rows produced by per-particle steps on slots [0, k) of a batch. -/
def procPairs (b : Batch) (k : ℕ) : List (Vec × Vec) :=
  (List.range k).filterMap
    (fun i => rowOut bounds fields (b.vertices i) (b.velocities i) (b.acceleration i))

/-- The number of slots among [0, k) whose stored position is in bounds. -/
def keepCount (b : Batch) (k : ℕ) : ℕ :=
  (List.range k).countP (fun i => rectContains bounds (b.vertices i))

lemma shiftCols_population : ∀ (k i : ℕ) (b : Batch),
    (shiftCols b i k).population = b.population := by
  intro k
  induction k with
  | zero => intro i b; rfl
  | succ k ih => intro i b; rw [shiftCols, ih]

lemma shiftCols_acceleration : ∀ (k i : ℕ) (b : Batch) (j : ℕ),
    (shiftCols b i k).acceleration j = b.acceleration j := by
  intro k
  induction k with
  | zero => intro i b j; rfl
  | succ k ih => intro i b j; rw [shiftCols, ih]

lemma shiftCols_vertices : ∀ (k i : ℕ) (b : Batch) (j : ℕ),
    (shiftCols b i k).vertices j =
      if i ≤ j ∧ j < i + k then b.vertices (j + 1) else b.vertices j := by
  intro k
  induction k with
  | zero =>
      intro i b j
      rw [shiftCols, if_neg (by omega)]
  | succ k ih =>
      intro i b j
      rw [shiftCols, ih]
      simp only [Function.update_apply]
      split_ifs <;> first | rfl | (exfalso; omega) | (congr 1; omega)

lemma shiftCols_velocities : ∀ (k i : ℕ) (b : Batch) (j : ℕ),
    (shiftCols b i k).velocities j =
      if i ≤ j ∧ j < i + k then b.velocities (j + 1) else b.velocities j := by
  intro k
  induction k with
  | zero =>
      intro i b j
      rw [shiftCols, if_neg (by omega)]
  | succ k ih =>
      intro i b j
      rw [shiftCols, ih]
      simp only [Function.update_apply]
      split_ifs <;> first | rfl | (exfalso; omega) | (congr 1; omega)

lemma stepAt_in (i : ℕ) (b : Batch) (cnt : ℤ)
    (h : rectContains bounds (b.vertices i) = true) :
    stepAt bounds fields i b cnt =
      ({ b with
          vertices := Function.update b.vertices i
            (integratePos (b.vertices i) (b.velocities i) (b.acceleration i))
          velocities := Function.update b.velocities i
            (integrateVel (b.velocities i) (b.acceleration i)
              (totalGForce fields
                (integratePos (b.vertices i) (b.velocities i) (b.acceleration i))))
          acceleration := Function.update b.acceleration i
            (totalGForce fields
              (integratePos (b.vertices i) (b.velocities i) (b.acceleration i))) },
        cnt) := by
  simp [stepAt, h]

lemma stepAt_out (i : ℕ) (b : Batch) (cnt : ℤ)
    (h : rectContains bounds (b.vertices i) = false) :
    stepAt bounds fields i b cnt =
      (shiftCols { b with population := b.population - 1 } i
        ((b.population - 1) - (i : ℤ)).toNat, cnt - 1) := by
  simp [stepAt, h]

/-- Loop invariant of the per-batch pass: after processing the top slots
down to slot k, the population and the counter have dropped by the number of
out-of-bounds slots seen so far, and the live rows are the processed survivors
of slots [0, k) followed by the untouched remaining rows. -/
lemma updateLoop_spec : ∀ (k : ℕ) (b : Batch) (cnt : ℤ),
    (k : ℤ) ≤ b.population →
      ((updateLoop bounds fields k (b, cnt)).1.population
          = b.population - (k : ℤ) + (keepCount bounds b k : ℤ))
      ∧ ((updateLoop bounds fields k (b, cnt)).2
          = cnt - (k : ℤ) + (keepCount bounds b k : ℤ))
      ∧ outPairs (updateLoop bounds fields k (b, cnt)).1
          = procPairs bounds fields b k
            ++ tailPairs b k (b.population - (k : ℤ)).toNat := by
  intro k
  induction k with
  | zero =>
      intro b cnt _
      refine ⟨by simp [updateLoop, keepCount], by simp [updateLoop, keepCount], ?_⟩
      simp only [updateLoop, outPairs, procPairs, tailPairs, keepCount,
        List.range_zero, List.filterMap_nil, List.nil_append, Nat.cast_zero,
        sub_zero]
      rw [List.range_eq_range']
  | succ k ih =>
      intro b cnt hk
      simp only [Nat.cast_add, Nat.cast_one] at hk ⊢
      have hstep : updateLoop bounds fields (k + 1) (b, cnt)
          = updateLoop bounds fields k (stepAt bounds fields k b cnt) := rfl
      by_cases h : rectContains bounds (b.vertices k) = true
      · -- slot k is in bounds: it is integrated in place
        rw [hstep, stepAt_in bounds fields k b cnt h]
        set p' := integratePos (b.vertices k) (b.velocities k) (b.acceleration k)
          with hp'
        set F := totalGForce fields p' with hFdef
        set v' := integrateVel (b.velocities k) (b.acceleration k) F with hv'
        set b1 : Batch :=
          { b with
            vertices := Function.update b.vertices k p'
            velocities := Function.update b.velocities k v'
            acceleration := Function.update b.acceleration k F } with hb1
        have hpop1 : b1.population = b.population := rfl
        have hvert : ∀ j, j ≠ k → b1.vertices j = b.vertices j := by
          intro j hj; rw [hb1]; simp [Function.update_apply, hj]
        have hvel : ∀ j, j ≠ k → b1.velocities j = b.velocities j := by
          intro j hj; rw [hb1]; simp [Function.update_apply, hj]
        have hacc : ∀ j, j ≠ k → b1.acceleration j = b.acceleration j := by
          intro j hj; rw [hb1]; simp [Function.update_apply, hj]
        obtain ⟨ih1, ih2, ih3⟩ := ih b1 cnt (by rw [hpop1]; omega)
        have hkeep : keepCount bounds b1 k = keepCount bounds b k := by
          unfold keepCount
          refine List.countP_congr ?_
          intro x hx
          have hxk : x ≠ k := by
            have := List.mem_range.mp hx; omega
          rw [hvert x hxk]
        have hproc : procPairs bounds fields b1 k = procPairs bounds fields b k := by
          unfold procPairs
          refine List.filterMap_congr ?_
          intro x hx
          have hxk : x ≠ k := by
            have := List.mem_range.mp hx; omega
          rw [hvert x hxk, hvel x hxk, hacc x hxk]
        have hm : (b.population - ((k : ℤ) + 1)).toNat + 1
            = (b.population - (k : ℤ)).toNat := by omega
        have htail : tailPairs b1 k (b1.population - (k : ℤ)).toNat
            = (p', v') :: tailPairs b (k + 1) (b.population - ((k : ℤ) + 1)).toNat := by
          unfold tailPairs
          rw [hpop1, ← hm, List.range'_succ, List.map_cons]
          have h1 : rowPair b1 k = (p', v') := by
            rw [hb1]; simp [rowPair, Function.update_apply]
          have h2 : (List.range' (k + 1) (b.population - ((k : ℤ) + 1)).toNat).map
                (rowPair b1)
              = (List.range' (k + 1) (b.population - ((k : ℤ) + 1)).toNat).map
                (rowPair b) := by
            refine List.map_congr_left ?_
            intro x hx
            obtain ⟨hx1, _⟩ := List.mem_range'_1.mp hx
            have hxk : x ≠ k := by omega
            rw [rowPair, rowPair, hvert x hxk, hvel x hxk]
          rw [h1, h2]
        have hprocsucc : procPairs bounds fields b (k + 1)
            = procPairs bounds fields b k ++ [(p', v')] := by
          unfold procPairs
          rw [List.range_succ, List.filterMap_append]
          simp [rowOut, h, hp', hFdef, hv']
        have hkeepsucc : keepCount bounds b (k + 1) = keepCount bounds b k + 1 := by
          unfold keepCount
          rw [List.range_succ, List.countP_append, List.countP_singleton]
          simp [h]
        refine ⟨?_, ?_, ?_⟩
        · rw [ih1, hpop1, hkeep, hkeepsucc]; push_cast; ring
        · rw [ih2, hkeep, hkeepsucc]; push_cast; ring
        · rw [ih3, hproc, htail, hprocsucc, List.append_cons]
      · -- slot k is out of bounds: it is removed and the gap closed
        have hbf : rectContains bounds (b.vertices k) = false := by
          simpa using h
        rw [hstep, stepAt_out bounds fields k b cnt hbf]
        set K0 := ((b.population - 1) - (k : ℤ)).toNat with hK0
        set b1 := shiftCols { b with population := b.population - 1 } k K0 with hb1
        have hpop1 : b1.population = b.population - 1 := by
          rw [hb1, shiftCols_population]
        have hvert : ∀ j, b1.vertices j
            = if k ≤ j ∧ j < k + K0 then b.vertices (j + 1) else b.vertices j := by
          intro j; rw [hb1, shiftCols_vertices]
        have hvel : ∀ j, b1.velocities j
            = if k ≤ j ∧ j < k + K0 then b.velocities (j + 1) else b.velocities j := by
          intro j; rw [hb1, shiftCols_velocities]
        have hacc : ∀ j, b1.acceleration j = b.acceleration j := by
          intro j; rw [hb1, shiftCols_acceleration]
        obtain ⟨ih1, ih2, ih3⟩ := ih b1 (cnt - 1) (by rw [hpop1]; omega)
        have hkeep : keepCount bounds b1 k = keepCount bounds b k := by
          unfold keepCount
          refine List.countP_congr ?_
          intro x hx
          have hxk : x < k := List.mem_range.mp hx
          rw [hvert x, if_neg (by omega)]
        have hproc : procPairs bounds fields b1 k = procPairs bounds fields b k := by
          unfold procPairs
          refine List.filterMap_congr ?_
          intro x hx
          have hxk : x < k := List.mem_range.mp hx
          rw [hvert x, hvel x, hacc x, if_neg (by omega), if_neg (by omega)]
        have htail : tailPairs b1 k K0 = tailPairs b (k + 1) K0 := by
          unfold tailPairs
          have h1 : (List.range' k K0).map (rowPair b1)
              = (List.range' k K0).map (fun x => rowPair b (1 + x)) := by
            refine List.map_congr_left ?_
            intro x hx
            obtain ⟨hx1, hx2⟩ := List.mem_range'_1.mp hx
            rw [rowPair, rowPair, hvert x, hvel x, if_pos ⟨hx1, hx2⟩,
              if_pos ⟨hx1, hx2⟩, Nat.add_comm 1 x]
          rw [h1]
          have h2 : (List.range' k K0).map (fun x => rowPair b (1 + x))
              = ((List.range' k K0).map (fun x => 1 + x)).map (rowPair b) := by
            rw [List.map_map]; rfl
          rw [h2, List.map_add_range', Nat.add_comm 1 k]
        have hprocsucc : procPairs bounds fields b (k + 1)
            = procPairs bounds fields b k := by
          unfold procPairs
          rw [List.range_succ, List.filterMap_append]
          simp [rowOut, hbf]
        have hkeepsucc : keepCount bounds b (k + 1) = keepCount bounds b k := by
          unfold keepCount
          rw [List.range_succ, List.countP_append, List.countP_singleton]
          simp [hbf]
        have hKeq : (b1.population - (k : ℤ)).toNat = K0 := by
          rw [hpop1]
        have hKeq2 : (b.population - ((k : ℤ) + 1)).toNat = K0 := by omega
        refine ⟨?_, ?_, ?_⟩
        · rw [ih1, hpop1, hkeep, hkeepsucc]; ring
        · rw [ih2, hkeep, hkeepsucc]; ring
        · rw [ih3, hproc, hKeq, htail, hprocsucc, hKeq2]

/-- Full-pass characterization: one per-batch pass keeps exactly the slots
whose stored position is in bounds, in their original relative order and with
integrated position and velocity, and the resulting population is the number
of kept slots. -/
lemma updateBatch_spec (b : Batch) (h : 0 ≤ b.population) :
    outPairs (updateBatch bounds fields b)
        = procPairs bounds fields b b.population.toNat
      ∧ (updateBatch bounds fields b).population
        = (keepCount bounds b b.population.toNat : ℤ) := by
  obtain ⟨h1, _, h3⟩ :=
    updateLoop_spec bounds fields b.population.toNat b 0 (by omega)
  have hz : (b.population - (b.population.toNat : ℤ)).toNat = 0 := by omega
  rw [hz] at h3
  have hnil : tailPairs b b.population.toNat 0 = [] := rfl
  rw [hnil, List.append_nil] at h3
  refine ⟨?_, ?_⟩
  · unfold updateBatch updateBatchC
    exact h3
  · unfold updateBatch updateBatchC
    rw [h1]; omega

/-- The per-batch pass can only shrink a population that starts within
bounds, and never below zero. -/
lemma updateBatch_popOK (b : Batch) (h : popOK b = true) :
    popOK (updateBatch bounds fields b) = true := by
  have h0 : 0 ≤ b.population ∧ b.population ≤ MAX_BATCH_VERTS := by
    simpa [popOK] using h
  obtain ⟨_, h2⟩ := updateBatch_spec bounds fields b h0.1
  have hle : keepCount bounds b b.population.toNat ≤ b.population.toNat := by
    unfold keepCount
    calc (List.range b.population.toNat).countP
          (fun i => rectContains bounds (b.vertices i))
        ≤ (List.range b.population.toNat).length := List.countP_le_length _
      _ = b.population.toNat := List.length_range _
  simp only [popOK, decide_eq_true_eq] at h0 ⊢
  rw [h2]
  omega

end UpdateLemmas

lemma spawn_nil (pos vel : Vec) (cnt : ℤ) :
    spawnParticle pos vel [] cnt
      = ([{ Batch.empty with
            vertices := Function.update Batch.empty.vertices 0 pos
            oldPositions := Function.update Batch.empty.oldPositions 0 pos
            velocities := Function.update Batch.empty.velocities 0 vel
            population := 1 }], cnt + 1) := by
  unfold spawnParticle
  simp [Batch.empty, MAX_BATCH_VERTS]

lemma spawn_notfull (pos vel : Vec) (l : List Batch) (b : Batch) (cnt : ℤ)
    (hb : ¬ MAX_BATCH_VERTS ≤ b.population) :
    spawnParticle pos vel (l ++ [b]) cnt
      = (l ++ [{ b with
            vertices := Function.update b.vertices b.population.toNat pos
            oldPositions := Function.update b.oldPositions b.population.toNat pos
            velocities := Function.update b.velocities b.population.toNat vel
            population := b.population + 1 }], cnt + 1) := by
  unfold spawnParticle
  simp [hb, List.getLastD_concat, List.dropLast_concat]

lemma spawn_full (pos vel : Vec) (l : List Batch) (b : Batch) (cnt : ℤ)
    (hb : MAX_BATCH_VERTS ≤ b.population) :
    spawnParticle pos vel (l ++ [b]) cnt
      = ((l ++ [b]) ++ [{ Batch.empty with
            vertices := Function.update Batch.empty.vertices 0 pos
            oldPositions := Function.update Batch.empty.oldPositions 0 pos
            velocities := Function.update Batch.empty.velocities 0 vel
            population := 1 }], cnt + 1) := by
  unfold spawnParticle
  simp [hb, List.getLastD_concat, List.dropLast_concat, Batch.empty]

/-- Shape of the batch list after n consecutive spawns from an empty world:
every batch but the last is full, the last holds (n−1) mod K + 1 particles,
and there are (n−1) / K batches before the last. -/
lemma spawnIter_shape (f : ℕ → Vec × Vec) :
    ∀ n, 1 ≤ n → ∃ l b, (spawnIter f n).1 = l ++ [b]
      ∧ (∀ x ∈ l, x.population = MAX_BATCH_VERTS)
      ∧ b.population = (((n - 1) % 1000 : ℕ) : ℤ) + 1
      ∧ l.length = (n - 1) / 1000 := by
  intro n
  induction n with
  | zero => intro h; omega
  | succ n ih =>
      intro _
      by_cases hn : n = 0
      · subst hn
        rw [show spawnIter f 1 = spawnParticle (f 0).1 (f 0).2 [] 0 from rfl,
          spawn_nil]
        exact ⟨[], _, rfl, by simp, by norm_num, by norm_num⟩
      · obtain ⟨l, b, hs, hl, hpop, hlen⟩ := ih (by omega)
        have hstep : spawnIter f (n + 1)
            = spawnParticle (f n).1 (f n).2 (spawnIter f n).1 (spawnIter f n).2 :=
          rfl
        by_cases hfull : (n - 1) % 1000 = 999
        · have hbfull : MAX_BATCH_VERTS ≤ b.population := by
            rw [hpop, hfull]; norm_num [MAX_BATCH_VERTS]
          refine ⟨l ++ [b],
            { Batch.empty with
                vertices := Function.update Batch.empty.vertices 0 (f n).1
                oldPositions := Function.update Batch.empty.oldPositions 0 (f n).1
                velocities := Function.update Batch.empty.velocities 0 (f n).2
                population := 1 }, ?_, ?_, ?_, ?_⟩
          · rw [hstep, hs, spawn_full _ _ _ _ _ hbfull]
          · intro x hx
            rcases List.mem_append.mp hx with hx1 | hx2
            · exact hl x hx1
            · rw [List.mem_singleton.mp hx2, hpop, hfull]
              norm_num [MAX_BATCH_VERTS]
          · show (1 : ℤ) = (((n + 1 - 1) % 1000 : ℕ) : ℤ) + 1
            have : n % 1000 = 0 := by omega
            simp [this]
          · rw [List.length_append, List.length_singleton, hlen]
            omega
        · have hbnot : ¬ MAX_BATCH_VERTS ≤ b.population := by
            rw [hpop, MAX_BATCH_VERTS]
            have : (n - 1) % 1000 < 1000 := Nat.mod_lt _ (by omega)
            push_cast
            omega
          refine ⟨l,
            { b with
                vertices := Function.update b.vertices b.population.toNat (f n).1
                oldPositions :=
                  Function.update b.oldPositions b.population.toNat (f n).1
                velocities := Function.update b.velocities b.population.toNat (f n).2
                population := b.population + 1 }, ?_, hl, ?_, ?_⟩
          · rw [hstep, hs, spawn_notfull _ _ _ _ _ hbnot]
          · show b.population + 1 = (((n + 1 - 1) % 1000 : ℕ) : ℤ) + 1
            rw [hpop]
            have h1 : n % 1000 = (n - 1) % 1000 + 1 := by omega
            push_cast
            omega
          · rw [hlen]
            omega

/-- Populations after spawning: a fresh slot has population arithmetic in ℤ
matching the Nat droplet arithmetic of `spawnIter_shape`. -/
lemma spawnIter_1001 (f : ℕ → Vec × Vec) :
    (spawnIter f 1001).1.length = 2
    ∧ ((spawnIter f 1001).1.getD 0 Batch.empty).population = MAX_BATCH_VERTS
    ∧ ((spawnIter f 1001).1.getLastD Batch.empty).population = 1 := by
  obtain ⟨l, b, hs, hl, hpop, hlen⟩ := spawnIter_shape f 1001 (by omega)
  have hlen1 : l.length = 1 := by rw [hlen]
  obtain ⟨x, hx⟩ := List.length_eq_one.mp hlen1
  subst hx
  rw [hs]
  refine ⟨rfl, ?_, ?_⟩
  · have hxmem : x ∈ [x] := List.mem_singleton_self x
    have := hl x hxmem
    simpa using this
  · rw [List.getLastD_concat]
    rw [hpop]
    norm_num

lemma spawn_popOK (pos vel : Vec) (bs : List Batch) (cnt : ℤ)
    (h : bs.all popOK = true) :
    ((spawnParticle pos vel bs cnt).1).all popOK = true := by
  rcases List.eq_nil_or_concat bs with hnil | ⟨l, b, rfl⟩
  · subst hnil
    rw [spawn_nil]
    simp [popOK, MAX_BATCH_VERTS]
  · rw [List.concat_eq_append] at h ⊢
    rw [List.all_append] at h
    simp only [Bool.and_eq_true] at h
    obtain ⟨hall, hb⟩ := h
    have hbOK : 0 ≤ b.population ∧ b.population ≤ MAX_BATCH_VERTS := by
      have : popOK b = true := by simpa using hb
      simpa [popOK] using this
    by_cases hfull : MAX_BATCH_VERTS ≤ b.population
    · rw [spawn_full _ _ _ _ _ hfull]
      rw [List.all_append, List.all_append]
      simp only [Bool.and_eq_true]
      refine ⟨⟨hall, by simpa using hb⟩, ?_⟩
      simp [popOK, MAX_BATCH_VERTS]
    · rw [spawn_notfull _ _ _ _ _ hfull]
      rw [List.all_append]
      simp only [Bool.and_eq_true]
      refine ⟨hall, ?_⟩
      simp only [List.all_cons, List.all_nil, Bool.and_true]
      simp only [popOK, decide_eq_true_eq] at hbOK ⊢
      rw [MAX_BATCH_VERTS] at hbOK hfull ⊢
      constructor <;> omega

lemma mapWithIndex_mem (f : ℕ → Batch → Batch) :
    ∀ (l : List Batch) (s : ℕ) (b' : Batch), b' ∈ mapWithIndex f s l →
      ∃ j b, b ∈ l ∧ b' = f j b := by
  intro l
  induction l with
  | nil => intro s b' h; rw [mapWithIndex] at h; simp at h
  | cons x xs ih =>
      intro s b' h
      rw [mapWithIndex] at h
      rcases List.mem_cons.mp h with h1 | h2
      · exact ⟨s, x, List.mem_cons_self x xs, h1⟩
      · obtain ⟨j, b, hbm, he⟩ := ih (s + 1) b' h2
        exact ⟨j, b, List.mem_cons_of_mem x hbm, he⟩

lemma update_popOK (T id : ℕ) (env : World)
    (h : env.particles.all popOK = true) :
    (update T id env).particles.all popOK = true := by
  rw [List.all_eq_true] at h ⊢
  intro b' hb'
  obtain ⟨j, b, hbm, he⟩ := mapWithIndex_mem _ env.particles 0 b' hb'
  rw [he]
  by_cases hg : threadStart T env.particles.length id ≤ j
      ∧ j < threadStop T env.particles.length id
  · simp only [if_pos hg]
    exact updateBatch_popOK env.bounds env.gravFields b (h b hbm)
  · simp only [if_neg hg]
    exact h b hbm

lemma foldl_update_popOK (T : ℕ) :
    ∀ (ids : List ℕ) (env : World), env.particles.all popOK = true →
      ((ids.foldl (fun e id => update T id e) env).particles.all popOK = true) := by
  intro ids
  induction ids with
  | nil => exact fun env h => h
  | cons i is ih => exact fun env h => ih _ (update_popOK T i env h)

lemma updateSystem_popOK (T : ℕ) (env : World)
    (h : env.particles.all popOK = true) :
    (updateSystem T env).particles.all popOK = true :=
  foldl_update_popOK T (List.range T) env h

lemma foldl_applyOp_popOK :
    ∀ (ops : List Op) (w : World), w.particles.all popOK = true →
      (ops.foldl applyOp w).particles.all popOK = true := by
  intro ops
  induction ops with
  | nil => exact fun w h => h
  | cons op ops ih =>
      intro w h
      refine ih _ ?_
      cases op with
      | spawn pos vel => exact spawn_popOK pos vel w.particles 0 h
      | tick T => exact updateSystem_popOK T w h

lemma mapWithIndex_length (f : ℕ → Batch → Batch) :
    ∀ (l : List Batch) (s : ℕ), (mapWithIndex f s l).length = l.length := by
  intro l
  induction l with
  | nil => intro s; rfl
  | cons x xs ih =>
      intro s
      rw [mapWithIndex, List.length_cons, List.length_cons, ih]

lemma mapWithIndex_getElem? (f : ℕ → Batch → Batch) :
    ∀ (l : List Batch) (s j : ℕ),
      (mapWithIndex f s l)[j]? = Option.map (f (s + j)) l[j]? := by
  intro l
  induction l with
  | nil => intro s j; rfl
  | cons x xs ih =>
      intro s j
      rw [mapWithIndex]
      cases j with
      | zero => simp
      | succ j =>
          rw [List.getElem?_cons_succ, List.getElem?_cons_succ, ih (s + 1) j]
          have hsj : s + 1 + j = s + (j + 1) := by omega
          rw [hsj]

lemma update_getElem? (T id : ℕ) (env : World) (j : ℕ) :
    (update T id env).particles[j]?
      = if threadStart T env.particles.length id ≤ j
            ∧ j < threadStop T env.particles.length id then
          Option.map (updateBatch env.bounds env.gravFields) env.particles[j]?
        else env.particles[j]? := by
  simp only [update]
  rw [mapWithIndex_getElem?]
  simp only [Nat.zero_add]
  by_cases hg : threadStart T env.particles.length id ≤ j
      ∧ j < threadStop T env.particles.length id
  · rw [if_pos hg]
    cases env.particles[j]? with
    | none => rfl
    | some b => simp [hg]
  · rw [if_neg hg]
    cases env.particles[j]? with
    | none => rfl
    | some b => simp [hg]

lemma update_bounds (T id : ℕ) (env : World) :
    (update T id env).bounds = env.bounds := rfl

lemma update_gravFields (T id : ℕ) (env : World) :
    (update T id env).gravFields = env.gravFields := rfl

lemma update_length (T id : ℕ) (env : World) :
    (update T id env).particles.length = env.particles.length := by
  simp only [update]
  rw [mapWithIndex_length]

lemma thread_ranges_disjoint_aux (T M id1 id2 j : ℕ) (hlt : id1 < id2)
    (h2 : id2 < T)
    (ha : j < threadStop T M id1) (hb : threadStart T M id2 ≤ j) : False := by
  have hne1 : ¬ id1 = T - 1 := by omega
  rw [threadStop, if_neg hne1] at ha
  rw [threadStart] at hb
  have hmono : M / T * (id1 + 1) ≤ M / T * id2 :=
    Nat.mul_le_mul_left _ (by omega)
  exact Nat.lt_irrefl j (Nat.lt_of_lt_of_le (Nat.lt_of_lt_of_le ha hmono) hb)

lemma thread_ranges_disjoint (T M id1 id2 j : ℕ) (h1 : id1 < T) (h2 : id2 < T)
    (hne : id1 ≠ id2)
    (ha : threadStart T M id1 ≤ j ∧ j < threadStop T M id1)
    (hb : threadStart T M id2 ≤ j ∧ j < threadStop T M id2) : False := by
  rcases Nat.lt_or_ge id1 id2 with hlt | hge
  · exact thread_ranges_disjoint_aux T M id1 id2 j hlt h2 ha.2 hb.1
  · have hlt2 : id2 < id1 := by omega
    exact thread_ranges_disjoint_aux T M id2 id1 j hlt2 h1 hb.2 ha.1

lemma thread_ranges_cover (T M j : ℕ) (hT : 1 ≤ T) (hj : j < M) :
    ∃ id, id < T ∧ threadStart T M id ≤ j ∧ j < threadStop T M id := by
  by_cases hs : M / T = 0
  · refine ⟨T - 1, by omega, ?_, ?_⟩
    · rw [threadStart, hs, Nat.zero_mul]
      exact Nat.zero_le j
    · rw [threadStop, if_pos rfl]
      exact hj
  · by_cases hq : T - 1 ≤ j / (M / T)
    · refine ⟨T - 1, by omega, ?_, ?_⟩
      · rw [threadStart]
        calc M / T * (T - 1) ≤ M / T * (j / (M / T)) :=
              Nat.mul_le_mul_left _ hq
          _ ≤ j := Nat.mul_div_le j (M / T)
      · rw [threadStop, if_pos rfl]
        exact hj
    · push_neg at hq
      refine ⟨j / (M / T), Nat.lt_of_lt_of_le hq (Nat.sub_le T 1), ?_, ?_⟩
      · rw [threadStart]
        exact Nat.mul_div_le j (M / T)
      · have hne : ¬ j / (M / T) = T - 1 := by omega
        rw [threadStop, if_neg hne, Nat.mul_succ]
        have hpos : 0 < M / T := Nat.pos_of_ne_zero hs
        have h1 := Nat.div_add_mod j (M / T)
        have h2 := Nat.mod_lt j hpos
        linarith

lemma thread_range_size (T M id : ℕ) (h : id + 1 < T) :
    threadStop T M id - threadStart T M id = M / T := by
  rw [threadStop, threadStart, if_neg (by omega), Nat.mul_succ,
    Nat.add_sub_cancel_left]

lemma thread_range_contiguous (T M id : ℕ) (h : id + 1 < T) :
    threadStop T M id = threadStart T M (id + 1) := by
  rw [threadStop, threadStart, if_neg (by omega)]

lemma foldl_update_getElem? (T : ℕ) (B : Rect) (F : List GField) (M : ℕ) :
    ∀ (ids : List ℕ) (env : World), env.bounds = B → env.gravFields = F →
      env.particles.length = M →
      (∀ id1 ∈ ids, id1 < T) → ids.Nodup → ∀ j : ℕ,
      (ids.foldl (fun e id => update T id e) env).particles[j]?
        = if ∃ id1 ∈ ids, threadStart T M id1 ≤ j ∧ j < threadStop T M id1 then
            Option.map (updateBatch B F) env.particles[j]?
          else env.particles[j]? := by
  intro ids
  induction ids with
  | nil =>
      intro env _ _ _ _ _ j
      simp
  | cons i is ih =>
      intro env hB hF hM hmem hnd j
      have hienv : (update T i env).bounds = B := by rw [update_bounds, hB]
      have hfenv : (update T i env).gravFields = F := by rw [update_gravFields, hF]
      have hlenv : (update T i env).particles.length = M := by
        rw [update_length, hM]
      have hmem' : ∀ id1 ∈ is, id1 < T := fun id1 h => hmem id1 (List.mem_cons_of_mem i h)
      have hnd' : is.Nodup := (List.nodup_cons.mp hnd).2
      have hstep : (i :: is).foldl (fun e id => update T id e) env
          = is.foldl (fun e id => update T id e) (update T i env) := rfl
      rw [hstep, ih (update T i env) hienv hfenv hlenv hmem' hnd' j]
      have hup := update_getElem? T i env j
      rw [hM, hB, hF] at hup
      by_cases hgi : threadStart T M i ≤ j ∧ j < threadStop T M i
      · have hnotrest : ¬ ∃ id1 ∈ is, threadStart T M id1 ≤ j
            ∧ j < threadStop T M id1 := by
          rintro ⟨id1, hid1, hown⟩
          have hne : i ≠ id1 := fun he =>
            (List.nodup_cons.mp hnd).1 (he ▸ hid1)
          exact thread_ranges_disjoint T M i id1 j
            (hmem i (List.mem_cons_self i is)) (hmem' id1 hid1) hne hgi hown
        rw [if_neg hnotrest, hup, if_pos hgi,
          if_pos ⟨i, List.mem_cons_self i is, hgi⟩]
      · have hiff : (∃ id1 ∈ i :: is, threadStart T M id1 ≤ j
              ∧ j < threadStop T M id1)
            ↔ (∃ id1 ∈ is, threadStart T M id1 ≤ j ∧ j < threadStop T M id1) := by
          constructor
          · rintro ⟨id1, hid1, hown⟩
            rcases List.mem_cons.mp hid1 with h1 | h1
            · exact absurd (h1 ▸ hown) hgi
            · exact ⟨id1, h1, hown⟩
          · rintro ⟨id1, hid1, hown⟩
            exact ⟨id1, List.mem_cons_of_mem i hid1, hown⟩
        rw [hup, if_neg hgi]
        by_cases hex : ∃ id1 ∈ is, threadStart T M id1 ≤ j ∧ j < threadStop T M id1
        · rw [if_pos hex, if_pos (hiff.mpr hex)]
        · rw [if_neg hex, if_neg (fun h => hex (hiff.mp h))]

lemma foldl_update_bounds (T : ℕ) : ∀ (ids : List ℕ) (env : World),
    (ids.foldl (fun e id => update T id e) env).bounds = env.bounds := by
  intro ids
  induction ids with
  | nil => intro env; rfl
  | cons i is ih => intro env; exact ih (update T i env)

lemma foldl_update_gravFields (T : ℕ) : ∀ (ids : List ℕ) (env : World),
    (ids.foldl (fun e id => update T id e) env).gravFields = env.gravFields := by
  intro ids
  induction ids with
  | nil => intro env; rfl
  | cons i is ih => intro env; exact ih (update T i env)

lemma updateSystem_eq_seqUpdate (T : ℕ) (env : World) (hT : 1 ≤ T) :
    updateSystem T env = seqUpdate env := by
  have hmem : ∀ id1 ∈ List.range T, id1 < T := fun id1 h => List.mem_range.mp h
  have hget := foldl_update_getElem? T env.bounds env.gravFields
    env.particles.length (List.range T) env rfl rfl rfl hmem (List.nodup_range T)
  apply World.ext
  · exact foldl_update_bounds T (List.range T) env
  · apply List.ext_getElem?
    intro j
    show ((List.range T).foldl (fun e id => update T id e) env).particles[j]? = _
    rw [hget j]
    by_cases hj : j < env.particles.length
    · obtain ⟨id1, hid1, hown⟩ :=
        thread_ranges_cover T env.particles.length j hT hj
      rw [if_pos ⟨id1, List.mem_range.mpr hid1, hown⟩]
      show _ = (env.particles.map (updateBatch env.bounds env.gravFields))[j]?
      rw [List.getElem?_map]
    · have hnone : env.particles[j]? = none :=
        List.getElem?_eq_none (by omega)
      have hnone2 : (env.particles.map
          (updateBatch env.bounds env.gravFields))[j]? = none :=
        List.getElem?_eq_none (by rw [List.length_map]; omega)
      show _ = (env.particles.map (updateBatch env.bounds env.gravFields))[j]?
      rw [hnone, hnone2]
      by_cases hex : ∃ id1 ∈ List.range T, threadStart T env.particles.length id1 ≤ j
          ∧ j < threadStop T env.particles.length id1
      · rw [if_pos hex]; rfl
      · rw [if_neg hex]
  · exact foldl_update_gravFields T (List.range T) env

lemma tickLoop_ge (acc : ℚ) (h : dtQ ≤ acc) :
    tickLoop acc = ((tickLoop (acc - dtQ)).1 + 1, (tickLoop (acc - dtQ)).2) := by
  rw [tickLoop]
  rw [if_pos h]

lemma tickLoop_lt (acc : ℚ) (h : ¬ dtQ ≤ acc) :
    tickLoop acc = (0, acc) := by
  rw [tickLoop]
  rw [if_neg h]

/-- Every run of the fixed-timestep loop removes dt exactly once per invoked
pass and leaves a remainder strictly below dt. -/
lemma tickLoop_decomp : ∀ acc : ℚ,
    ((tickLoop acc).1 : ℚ) * dtQ + (tickLoop acc).2 = acc
    ∧ (tickLoop acc).2 < dtQ := by
  intro acc
  induction acc using tickLoop.induct with
  | case1 acc h ih =>
      rw [tickLoop_ge acc h]
      obtain ⟨ih1, ih2⟩ := ih
      refine ⟨?_, by simpa using ih2⟩
      push_cast
      linarith
  | case2 acc h =>
      rw [tickLoop_lt acc h]
      refine ⟨by simp, by simpa using not_le.mp h⟩

lemma tickFrame_half : tickFrame 0 ((5 / 2) * dtQ) = (2, dtQ / 2) := by
  have e0 : (0 : ℚ) + (5 / 2) * dtQ = 1 / 24 := by norm_num [dtQ]
  rw [tickFrame, e0]
  rw [tickLoop_ge _ (by norm_num [dtQ])]
  have e1 : (1 / 24 : ℚ) - dtQ = 1 / 40 := by norm_num [dtQ]
  rw [e1, tickLoop_ge _ (by norm_num [dtQ])]
  have e2 : (1 / 40 : ℚ) - dtQ = 1 / 120 := by norm_num [dtQ]
  rw [e2, tickLoop_lt _ (by norm_num [dtQ])]
  norm_num [dtQ, Prod.ext_iff]

/-- C1 (counterexample): the batch bC1 holds a single particle whose stored
position (799, 300) is inside the 800×600 bounds, whose integrated position
(801, 300) is outside them, and yet after the full per-batch pass the
population is still 1 and the particle is still present at slot 0 with the
out-of-bounds position. The bounds test runs before integration, so a
particle that integrates out of bounds survives the current pass; the claim
that it is absent when the pass completes is false. -/
theorem c1_counterexample :
    rectContains W_DIM (bC1.vertices 0) = true
    ∧ integratePos (bC1.vertices 0) (bC1.velocities 0) (bC1.acceleration 0)
        = (801, 300)
    ∧ rectContains W_DIM (801, 300) = false
    ∧ (updateBatch W_DIM fields0 bC1).population = 1
    ∧ (updateBatch W_DIM fields0 bC1).vertices 0 = (801, 300) := by
  norm_num [updateBatch, updateBatchC, updateLoop, stepAt, rectContains,
    integratePos, integrateVel, totalGForce, smul', sdiv, Function.update_apply,
    bC1, fields0, W_DIM, dtQ, Batch.empty, min_def, max_def, Prod.ext_iff]

/-- C1 (amended): removal is decided on the position stored at the start of
the pass, that is, on the position the previous pass integrated. One
per-batch pass keeps exactly the slots whose stored position is in bounds:
each slot whose stored position is out of bounds is absent afterwards, the
population drops by exactly one per removed slot (it equals the number of
kept slots), and the surviving rows appear in their original relative order
with integrated position and velocity. -/
theorem c1_oob_removal_at_detection (bounds : Rect) (fields : List GField)
    (b : Batch) (h : 0 ≤ b.population) :
    outPairs (updateBatch bounds fields b)
        = procPairs bounds fields b b.population.toNat
      ∧ (updateBatch bounds fields b).population
        = (keepCount bounds b b.population.toNat : ℤ) :=
  updateBatch_spec bounds fields b h

/-- C1 (witness): the amended claim evaluated on a concrete two-particle
batch with one out-of-bounds slot. -/
theorem c1_witness :
    0 ≤ bC1w.population
    ∧ (outPairs (updateBatch W_DIM fields0 bC1w)
          = procPairs W_DIM fields0 bC1w bC1w.population.toNat
        ∧ (updateBatch W_DIM fields0 bC1w).population
          = (keepCount W_DIM bC1w bC1w.population.toNat : ℤ)) :=
  ⟨by norm_num [bC1w, Batch.empty],
   c1_oob_removal_at_detection W_DIM fields0 bC1w (by norm_num [bC1w, Batch.empty])⟩

/-- C2 (evaluated at the failing input): on the batch bC2, whose slot 0 is
out of bounds and whose slot 1 is a live in-bounds particle, the per-batch
pass decrements the population to 1 and the global counter by 1, and shifts
the survivor's position and velocity down to slot 0; but the acceleration
column is not shifted: with no force fields, the survivor's stored
acceleration should be the zero total force, yet slot 0 still holds (1, 1),
the acceleration of the removed particle. The claim that each surviving
particle retains its complete state, acceleration included, fails. -/
theorem c2_removal_leaves_acceleration_column_unshifted :
    (updateBatchC W_DIM [] bC2 0).1.population = 1
    ∧ (updateBatchC W_DIM [] bC2 0).2 = -1
    ∧ (updateBatchC W_DIM [] bC2 0).1.vertices 0
        = integratePos (bC2.vertices 1) (bC2.velocities 1) (bC2.acceleration 1)
    ∧ (updateBatchC W_DIM [] bC2 0).1.velocities 0
        = integrateVel (bC2.velocities 1) (bC2.acceleration 1)
            (totalGForce []
              (integratePos (bC2.vertices 1) (bC2.velocities 1) (bC2.acceleration 1)))
    ∧ totalGForce []
          (integratePos (bC2.vertices 1) (bC2.velocities 1) (bC2.acceleration 1))
        = (0, 0)
    ∧ (updateBatchC W_DIM [] bC2 0).1.acceleration 0 = (1, 1) := by
  norm_num [updateBatchC, updateLoop, stepAt, shiftCols, rectContains,
    integratePos, integrateVel, totalGForce, smul', sdiv, Function.update_apply,
    bC2, W_DIM, dtQ, Batch.empty, min_def, max_def, Prod.ext_iff]

/-- C3 (evaluated at the failing input): spawn a fast particle, let one pass
integrate it out of bounds and a second pass remove it, then spawn a new
particle into the recycled slot 0. The new particle receives the requested
position (10, 10) and velocity (0, 0) and the population and batch count are
as claimed, but its acceleration is not zero: spawnParticle writes no
acceleration, so the slot still holds the stale acceleration produced by the
first pass. The claim that a spawned slot receives zero acceleration in any
world state is false. -/
theorem c3_spawned_slot_keeps_stale_acceleration :
    wC3.particles.length = 1
    ∧ (wC3.particles.getD 0 Batch.empty).population = 1
    ∧ (wC3.particles.getD 0 Batch.empty).vertices 0 = (10, 10)
    ∧ (wC3.particles.getD 0 Batch.empty).velocities 0 = (0, 0)
    ∧ (wC3.particles.getD 0 Batch.empty).acceleration 0
        = (-400000 / 640001, -500 / 640001)
    ∧ ¬ (wC3.particles.getD 0 Batch.empty).acceleration 0 = (0, 0) := by
  norm_num [wC3, runOps, opsC3, applyOp, spawnParticle, updateSystem,
    List.range_succ, update, mapWithIndex, threadStart, threadStop,
    updateBatch, updateBatchC, updateLoop, stepAt, shiftCols, rectContains,
    integratePos, integrateVel, totalGForce, smul', sdiv, Function.update_apply,
    Batch.empty, W_DIM, fields0, dtQ, MAX_BATCH_VERTS, min_def, max_def,
    Prod.ext_iff]

/-- C4 (evaluated at the failing input): for the field of main, at a particle
position equal to the field origin (400, 300) — a position inside the world
bounds, hence on the live code path — the force accumulation of the source
divides by r2 = 0: the accumulation has no epsilon clamp and no skip, so in
IEEE float arithmetic the contribution is 0/0 = NaN. The claim that the
implementation defines this case so that no division by zero occurs is
false. -/
theorem c4_force_accumulation_divides_by_zero_at_field_origin :
    forceHasZeroDenom fields0 (400, 300) = true
    ∧ rectContains W_DIM (400, 300) = true := by
  norm_num [forceHasZeroDenom, rectContains, fields0, W_DIM, min_def, max_def]

/-- C5: for a particle whose stored position passes the bounds test, the
per-particle step first integrates the position by velocity·dt plus
acceleration·dt², then accumulates the total field force at the newly
integrated position, then adds 0.5·(old acceleration + total force)·dt to the
velocity and stores the total force as the new acceleration, leaving the
population and the counter alone; and for a single field at the origin with
intensity `inten` and a particle at (d, 0) with d ≠ 0 the accumulated force
is (−inten/d, 0). -/
theorem c5_step_formulas (bounds : Rect) (fields : List GField) (i : ℕ)
    (b : Batch) (cnt : ℤ) (h : rectContains bounds (b.vertices i) = true) :
    ((stepAt bounds fields i b cnt).1.vertices i
        = b.vertices i + smul' (b.velocities i) dtQ
          + smul' (smul' (b.acceleration i) dtQ) dtQ)
    ∧ ((stepAt bounds fields i b cnt).1.velocities i
        = b.velocities i + smul' (smul' (b.acceleration i
            + totalGForce fields ((stepAt bounds fields i b cnt).1.vertices i))
            (1 / 2)) dtQ)
    ∧ ((stepAt bounds fields i b cnt).1.acceleration i
        = totalGForce fields ((stepAt bounds fields i b cnt).1.vertices i))
    ∧ (stepAt bounds fields i b cnt).1.population = b.population
    ∧ (stepAt bounds fields i b cnt).2 = cnt
    ∧ (∀ inten d : ℚ, ¬ d = 0 →
        totalGForce [⟨(0, 0), inten⟩] (d, 0) = (-inten / d, 0)) := by
  rw [stepAt_in bounds fields i b cnt h]
  refine ⟨?_, ?_, ?_, rfl, rfl, ?_⟩
  · simp [Function.update_apply, integratePos]
  · simp [Function.update_apply, integrateVel]
  · simp [Function.update_apply]
  · intro inten d hd
    simp only [totalGForce, List.foldl_cons, List.foldl_nil, smul', sdiv,
      Prod.mk_sub_mk, Prod.mk_add_mk, Prod.mk.injEq]
    constructor
    · field_simp
      ring
    · simp

/-- C5 (witness): the step formulas evaluated on a concrete in-bounds
particle with nonzero velocity and acceleration. -/
theorem c5_witness :
    rectContains W_DIM (bC5.vertices 0) = true
    ∧ (((stepAt W_DIM fields0 0 bC5 7).1.vertices 0
          = bC5.vertices 0 + smul' (bC5.velocities 0) dtQ
            + smul' (smul' (bC5.acceleration 0) dtQ) dtQ)
      ∧ ((stepAt W_DIM fields0 0 bC5 7).1.velocities 0
          = bC5.velocities 0 + smul' (smul' (bC5.acceleration 0
              + totalGForce fields0 ((stepAt W_DIM fields0 0 bC5 7).1.vertices 0))
              (1 / 2)) dtQ)
      ∧ ((stepAt W_DIM fields0 0 bC5 7).1.acceleration 0
          = totalGForce fields0 ((stepAt W_DIM fields0 0 bC5 7).1.vertices 0))
      ∧ (stepAt W_DIM fields0 0 bC5 7).1.population = bC5.population
      ∧ (stepAt W_DIM fields0 0 bC5 7).2 = 7
      ∧ (∀ inten d : ℚ, ¬ d = 0 →
          totalGForce [⟨(0, 0), inten⟩] (d, 0) = (-inten / d, 0))) :=
  ⟨by norm_num [rectContains, bC5, Batch.empty, W_DIM, Function.update_apply,
      min_def, max_def],
   c5_step_formulas W_DIM fields0 0 bC5 7
    (by norm_num [rectContains, bC5, Batch.empty, W_DIM, Function.update_apply,
      min_def, max_def])⟩

/-- C6: for any worker count T ≥ 1 and any world, every non-last worker's
batch range has size ⌊M/T⌋, consecutive ranges are contiguous, the last
worker's range ends at M, every batch index below M is covered by some
worker, no batch index is covered by two distinct workers, and the composed
multi-worker pass produces exactly the world of the deterministic
single-threaded reference pass over all batches. -/
theorem c6_partition_and_refinement (T : ℕ) (env : World) (hT : 1 ≤ T) :
    (∀ id, id + 1 < T →
        threadStop T env.particles.length id
            - threadStart T env.particles.length id
          = env.particles.length / T)
    ∧ (∀ id, id + 1 < T →
        threadStop T env.particles.length id
          = threadStart T env.particles.length (id + 1))
    ∧ threadStop T env.particles.length (T - 1) = env.particles.length
    ∧ (∀ j, j < env.particles.length →
        ∃ id, id < T ∧ threadStart T env.particles.length id ≤ j
          ∧ j < threadStop T env.particles.length id)
    ∧ (∀ j id1 id2, id1 < T → id2 < T →
        threadStart T env.particles.length id1 ≤ j →
        j < threadStop T env.particles.length id1 →
        threadStart T env.particles.length id2 ≤ j →
        j < threadStop T env.particles.length id2 → id1 = id2)
    ∧ updateSystem T env = seqUpdate env := by
  refine ⟨fun id h => thread_range_size T _ id h,
    fun id h => thread_range_contiguous T _ id h,
    by rw [threadStop, if_pos rfl],
    fun j hj => thread_ranges_cover T _ j hT hj,
    ?_, updateSystem_eq_seqUpdate T env hT⟩
  intro j id1 id2 h1 h2 ha1 ha2 hb1 hb2
  by_contra hne
  exact thread_ranges_disjoint T env.particles.length id1 id2 j h1 h2 hne
    ⟨ha1, ha2⟩ ⟨hb1, hb2⟩

/-- C6 (witness): the partition and refinement claim evaluated at two
workers on a concrete three-batch world. -/
theorem c6_witness :
    1 ≤ 2
    ∧ ((∀ id, id + 1 < 2 →
          threadStop 2 wC6.particles.length id
              - threadStart 2 wC6.particles.length id
            = wC6.particles.length / 2)
      ∧ (∀ id, id + 1 < 2 →
          threadStop 2 wC6.particles.length id
            = threadStart 2 wC6.particles.length (id + 1))
      ∧ threadStop 2 wC6.particles.length (2 - 1) = wC6.particles.length
      ∧ (∀ j, j < wC6.particles.length →
          ∃ id, id < 2 ∧ threadStart 2 wC6.particles.length id ≤ j
            ∧ j < threadStop 2 wC6.particles.length id)
      ∧ (∀ j id1 id2, id1 < 2 → id2 < 2 →
          threadStart 2 wC6.particles.length id1 ≤ j →
          j < threadStop 2 wC6.particles.length id1 →
          threadStart 2 wC6.particles.length id2 ≤ j →
          j < threadStop 2 wC6.particles.length id2 → id1 = id2)
      ∧ updateSystem 2 wC6 = seqUpdate wC6) :=
  ⟨by decide, c6_partition_and_refinement 2 wC6 (by decide)⟩

/-- C7: for any stream of spawn requests, 1001 consecutive calls of
spawnParticle starting from the empty batch list produce exactly 2 batches,
the first holding MAX_BATCH_VERTS = 1000 particles and the second holding
exactly 1. -/
theorem c7_spawn_overflow (f : ℕ → Vec × Vec) :
    (spawnIter f 1001).1.length = 2
    ∧ ((spawnIter f 1001).1.getD 0 Batch.empty).population = MAX_BATCH_VERTS
    ∧ ((spawnIter f 1001).1.getLastD Batch.empty).population = 1 :=
  spawnIter_1001 f

/-- C8: after any sequence of spawn calls and update passes run from an
empty world with any bounds and fields, every batch satisfies
0 ≤ population ≤ MAX_BATCH_VERTS. In the columnar embedding the live slots
of a batch are by construction exactly the contiguous index range
[0, population). -/
theorem c8_population_invariant (B : Rect) (F : List GField) (ops : List Op) :
    (runOps B F ops).particles.all popOK = true :=
  foldl_applyOp_popOK ops ⟨B, [], F⟩ rfl

/-- C9: the tick driver adds the frame delta to the accumulator and runs one
update pass per whole dt it holds: a frame delta of 2.5·dt from an empty
accumulator yields exactly 2 passes with 0.5·dt left; and in general the
loop removes dt exactly once per invoked pass and stops with a remainder
strictly below dt. -/
theorem c9_tick_accumulation :
    tickFrame 0 ((5 / 2) * dtQ) = (2, dtQ / 2)
    ∧ ∀ acc : ℚ, ((tickLoop acc).1 : ℚ) * dtQ + (tickLoop acc).2 = acc
        ∧ (tickLoop acc).2 < dtQ :=
  ⟨tickFrame_half, tickLoop_decomp⟩

/-- C10 (counterexample): with worker count 0, updateSystem returns the
world unchanged — on the world wC10, whose single particle is out of bounds,
the population is still 1 after updateSystem 0, while a single synchronous
pass over all batches would remove the particle and leave population 0. The
claim that the pass degenerates to a single synchronous pass is false; the
run degenerates to no pass at all. -/
theorem c10_counterexample :
    updateSystem 0 wC10 = wC10
    ∧ ((seqUpdate wC10).particles.getD 0 Batch.empty).population = 0
    ∧ ((updateSystem 0 wC10).particles.getD 0 Batch.empty).population = 1 := by
  refine ⟨rfl, ?_, ?_⟩
  · norm_num [seqUpdate, wC10, updateBatch, updateBatchC, updateLoop, stepAt,
      shiftCols, rectContains, Function.update_apply, Batch.empty, W_DIM,
      min_def, max_def]
  · norm_num [updateSystem, wC10, Batch.empty]

/-- C10 (amended): with a detected worker count of 0, updateSystem launches
no workers, the completion wait is immediately satisfied, and the world is
returned unchanged; no division by zero occurs because the per-worker
partition computation is never executed. -/
theorem c10_zero_workers_noop (env : World) : updateSystem 0 env = env := rfl

end PSim
